import Mathlib

/-!
Verification of the woo-product-update catalog-synchronization pipeline.

The definitions below are shallow embeddings of the JavaScript sources:
`checkpoint.js` (saveCheckpoint), `worker.js` (the batchQueue processor),
`batch-helpers.js` (normalizeText, isUpdateNeeded, processBatch),
`woo-helpers.js` (the limiter failure policy) and `s3-helpers.js`
(readCSVAndEnqueueJobs).  Strings are modelled as `List Char`; a JavaScript
value that may be `undefined` is modelled as an `Option`.
-/

namespace WooUpdate

/-! ## Checkpoint subsystem (checkpoint.js and worker.js) -/

/-- Embedding of `saveCheckpoint(fileKey, lastProcessedRow, totalProductsInFile, batch)`
from checkpoint.js.  The store holds the persisted `lastProcessedRow` for one
feed key (`none` when no checkpoint exists yet).  An empty batch returns early
without writing; otherwise the function computes
`min(lastProcessedRow + batch.length, totalProductsInFile)` and writes it
whenever it is at most `totalProductsInFile`. -/
def saveCheckpoint (stored : Option Nat) (lastProcessedRow totalProductsInFile batchLen : Nat) :
    Option Nat :=
  if batchLen = 0 then stored
  else if min (lastProcessedRow + batchLen) totalProductsInFile ≤ totalProductsInFile then
    some (min (lastProcessedRow + batchLen) totalProductsInFile)
  else stored

/-- Embedding of the success path of the worker in worker.js: after
`processBatch` succeeds the worker computes
`updatedLastProcessedRow = lastProcessedRow + batch.length` from the job's own
`lastProcessedRow` field and passes it to `saveCheckpoint` together with the
batch. -/
def workerCommit (stored : Option Nat) (jobLastProcessedRow batchLen totalProductsInFile : Nat) :
    Option Nat :=
  saveCheckpoint stored (jobLastProcessedRow + batchLen) totalProductsInFile batchLen

/-- A batch job as carried by the queue, restricted to the fields the
checkpoint commit reads: the job's `lastProcessedRow`, the batch length and
`totalProductsInFile`. -/
structure BatchJob where
  lastProcessedRow : Nat
  batchLen : Nat
  total : Nat
deriving DecidableEq

/-- One successful job commit applied to the stored checkpoint value. -/
def applyJob (stored : Option Nat) (j : BatchJob) : Option Nat :=
  workerCommit stored j.lastProcessedRow j.batchLen j.total

/-- The value a successful commit of job `j` leaves in the store:
`min(lastProcessedRow + 2 * batchLen, total)` (the worker adds `batchLen`
once and `saveCheckpoint` adds it a second time). -/
def commitValue (j : BatchJob) : Nat :=
  min (j.lastProcessedRow + 2 * j.batchLen) j.total

/-- The sequence of `lastProcessedRow` values read back from the checkpoint
store after each successful commit, starting from an empty store
(`getCheckpoint` returns 0 when no checkpoint exists). -/
def readsAfter (jobs : List BatchJob) : List Nat :=
  ((jobs.scanl applyJob (none : Option Nat)).tail).map (fun st => st.getD 0)

theorem applyJob_eq_commitValue (stored : Option Nat) (j : BatchJob) (h : j.batchLen ≠ 0) :
    applyJob stored j = some (commitValue j) := by
  unfold applyJob workerCommit saveCheckpoint commitValue
  rw [if_neg h, if_pos (Nat.min_le_right _ _)]
  congr 1
  omega

theorem scanl_applyJob_map (jobs : List BatchJob) :
    ∀ st : Option Nat, (∀ j ∈ jobs, j.batchLen ≠ 0) →
      (jobs.scanl applyJob st).map (fun s => s.getD 0)
        = st.getD 0 :: jobs.map commitValue := by
  induction jobs with
  | nil => intro st _; simp [List.scanl]
  | cons j rest ih =>
      intro st h
      have hj : j.batchLen ≠ 0 := h j (by simp)
      have hrest : ∀ x ∈ rest, x.batchLen ≠ 0 := fun x hx => h x (by simp [hx])
      simp only [List.scanl, List.map_cons]
      rw [ih (applyJob st j) hrest, applyJob_eq_commitValue st j hj]
      simp

theorem readsAfter_eq (jobs : List BatchJob) (h : ∀ j ∈ jobs, j.batchLen ≠ 0) :
    readsAfter jobs = jobs.map commitValue := by
  unfold readsAfter
  cases jobs with
  | nil => simp [List.scanl]
  | cons j rest =>
      have hj : j.batchLen ≠ 0 := h j (by simp)
      have hrest : ∀ x ∈ rest, x.batchLen ≠ 0 := fun x hx => h x (by simp [hx])
      simp only [List.scanl, List.tail_cons, List.map_cons]
      rw [scanl_applyJob_map rest (applyJob (none : Option Nat) j) hrest,
        applyJob_eq_commitValue (none : Option Nat) j hj]
      simp

/-- C1: For every successfully processed BatchJob the persisted checkpoint
value equals `min(lastProcessedRow + len(batch), totalRowsInFeed)` computed
from the job's own last-row field.  The code instead adds the batch length
twice: for a job with `lastProcessedRow = 1`, a one-row batch and a feed of
10 rows the composition of the worker's update and `saveCheckpoint` persists
`3`, not `min(1 + 1, 10) = 2`. -/
theorem workerCommit_double_advance :
    workerCommit none 1 1 10 = some 3 ∧ some 3 ≠ some (min (1 + 1) 10) := by
  decide

/-- C2: the sequence of `lastProcessedRow` values read from the checkpoint
store is claimed to be monotonically non-decreasing in any completion order
of the parallel workers.  Counterexample: a job covering higher rows
(`lastProcessedRow = 11`, 10 rows, feed of 100) commits first and stores 31;
a job covering lower rows (`lastProcessedRow = 1`, 10 rows) commits after it
and overwrites the store with 21 < 31. -/
theorem readsAfter_not_monotone :
    readsAfter [⟨11, 10, 100⟩, ⟨1, 10, 100⟩] = [31, 21] ∧ ¬ (31 ≤ 21) := by
  decide

/-- C2 (amended): each successful commit overwrites the store with the
committing job's own value `min(lastProcessedRow + 2 * batchLen, total)`,
unconditionally; hence the reads after each commit are exactly those values,
and they are non-decreasing precisely when the successive commit values are
non-decreasing. -/
theorem readsAfter_characterization (jobs : List BatchJob)
    (h : ∀ j ∈ jobs, j.batchLen ≠ 0) :
    readsAfter jobs = jobs.map commitValue ∧
      (List.Chain' (· ≤ ·) (readsAfter jobs) ↔
        List.Chain' (· ≤ ·) (jobs.map commitValue)) := by
  have he := readsAfter_eq jobs h
  exact ⟨he, by rw [he]⟩

/-- C2 witness: the amended characterization applied to a concrete
single-job run. -/
theorem readsAfter_characterization_witness :
    (⟨1, 1, 10⟩ : BatchJob).batchLen ≠ 0 ∧
      readsAfter [(⟨1, 1, 10⟩ : BatchJob)]
        = ([(⟨1, 1, 10⟩ : BatchJob)].map commitValue) :=
  ⟨by decide,
    (readsAfter_characterization [(⟨1, 1, 10⟩ : BatchJob)] (by decide)).1⟩

/-! ## Substring matching (regular-expression tests on error messages) -/

/-- Prefix test: `isPre pat s` holds when `pat` is an initial segment of `s`. -/
def isPre : List Char → List Char → Bool
  | [], _ => true
  | _ :: _, [] => false
  | a :: as, b :: bs => a == b && isPre as bs

/-- Substring test: `occurs pat s` holds when `pat` appears as a contiguous substring of `s`
(the effect of a JavaScript `RegExp.test` with a literal alternative). -/
def occurs (pat : List Char) : List Char → Bool
  | [] => pat.isEmpty
  | c :: rest => isPre pat (c :: rest) || occurs pat rest

/-! ## RateGate retry policy (woo-helpers.js, `limiter.on("failed")`) -/

/-- Embedding of the transient-error test
`/(ECONNRESET|socket hang up|502|504|429)/.test(error.message)` from the
limiter failure handler in woo-helpers.js. -/
def transientMatch (msg : List Char) : Bool :=
  occurs ("ECONNRESET".toList) msg || occurs ("socket hang up".toList) msg ||
    occurs ("502".toList) msg || occurs ("504".toList) msg ||
    occurs ("429".toList) msg

/-- Embedding of the limiter failure handler from woo-helpers.js: when
`retryCount < 5` and the error message matches the transient classifier it
returns the delay `1000 * 2 ^ retryCount` milliseconds; otherwise it returns
no delay (the job gives up). -/
def onFailedPolicy (errorMessage : List Char) (retryCount : Nat) : Option Nat :=
  if retryCount < 5 ∧ transientMatch errorMessage = true then
    some (1000 * 2 ^ retryCount)
  else none

/-- Modelled from the spec: the transient classifier exactly as the spec
states it, consisting of HTTP 429, 502, 504, 524, ECONNRESET and
"socket hang up". -/
def specTransient (msg : List Char) : Bool :=
  occurs ("429".toList) msg || occurs ("502".toList) msg ||
    occurs ("504".toList) msg || occurs ("524".toList) msg ||
    occurs ("ECONNRESET".toList) msg || occurs ("socket hang up".toList) msg

/-- C7: the claim includes HTTP 524 in the transient classifier.
Counterexample: for the message "Request failed with status code 524" at
attempt 0 the claim demands the delay `1000 * 2 ^ 0`, but the handler's
regular expression has no alternative for 524, so the policy gives up. -/
theorem onFailed_ignores_524 :
    onFailedPolicy ("Request failed with status code 524".toList) 0 = none ∧
      specTransient ("Request failed with status code 524".toList) = true ∧
      (0 : Nat) < 5 := by
  decide

/-- C7 (amended): the retry policy returns the delay `1000 * 2 ^ attempt`
exactly when the attempt count is below 5 and the message matches one of
ECONNRESET, "socket hang up", 502, 504 or 429 (524 is not in the
classifier); in every other case it returns no delay. -/
theorem onFailedPolicy_characterization (msg : List Char) (n : Nat) :
    (onFailedPolicy msg n = some (1000 * 2 ^ n) ↔
      (n < 5 ∧ (occurs ("ECONNRESET".toList) msg = true ∨
        occurs ("socket hang up".toList) msg = true ∨
        occurs ("502".toList) msg = true ∨
        occurs ("504".toList) msg = true ∨
        occurs ("429".toList) msg = true))) ∧
    (onFailedPolicy msg n = none ↔
      ¬ (n < 5 ∧ (occurs ("ECONNRESET".toList) msg = true ∨
        occurs ("socket hang up".toList) msg = true ∨
        occurs ("502".toList) msg = true ∨
        occurs ("504".toList) msg = true ∨
        occurs ("429".toList) msg = true))) := by
  unfold onFailedPolicy transientMatch
  by_cases h5 : n < 5 <;>
    by_cases h1 : occurs ("ECONNRESET".toList) msg = true <;>
    by_cases h2 : occurs ("socket hang up".toList) msg = true <;>
    by_cases h3 : occurs ("502".toList) msg = true <;>
    by_cases h4 : occurs ("504".toList) msg = true <;>
    by_cases h6 : occurs ("429".toList) msg = true <;>
    simp_all

/-- C7 witness: the amended characterization applied to a concrete 502
message at attempt 0. -/
theorem onFailedPolicy_characterization_witness :
    onFailedPolicy ("502".toList) 0 = some (1000 * 2 ^ 0) :=
  ((onFailedPolicy_characterization ("502".toList) 0).1).mpr
    ⟨by decide, Or.inr (Or.inr (Or.inl (by decide)))⟩

/-! ## Feed ingestor (s3-helpers.js, `readCSVAndEnqueueJobs`) -/

/-- One chunk handed to the row loop by the CSV parser: either a
successfully parsed (and header-normalized) row, or a chunk whose
processing raises an exception.  The row payload is abstract: the ingest
control flow does not inspect it. -/
inductive Chunk (α : Type) where
  | ok (row : α)
  | err
deriving DecidableEq

/-- A job as placed on the Bull queue by the ingestor: its queue job id, the
batch of rows and the `lastProcessedRow` field of the job data. -/
structure QueueJob (α : Type) where
  jid : String
  batch : List α
  lastProcessedRow : Nat
deriving DecidableEq

/-- The outcome of ingesting one feed: the jobs enqueued, and whether the
ingest aborted by throwing after too many row errors. -/
structure IngestOut (α : Type) where
  jobs : List (QueueJob α)
  aborted : Bool
deriving DecidableEq

/-- The queue job id built by the ingestor: `` `${key}-${lastProcessedRow}` ``. -/
def mkJobId (fileKey : String) (lastProcessedRow : Nat) : String :=
  fileKey ++ "-" ++ toString lastProcessedRow

/-- The loop body of `readCSVAndEnqueueJobs`.  State: `consecutiveErrors`
(reset to 0 only when a full batch is enqueued), `lastProcessedRow` (the
running row counter, incremented for every chunk, including chunks whose
processing throws), the pending `batch`, and the jobs enqueued so far.
A chunk error increments the error counter and aborts once it reaches
`MAX_RETRIES = 3`.  A parsed row is pushed onto the batch; when the batch
reaches `batchSize` it is enqueued under
`jobId = mkJobId fileKey lastProcessedRow`.  After the stream ends a
non-empty remainder batch is enqueued under the current row counter. -/
def runIngestAux {α : Type} (fileKey : String) (batchSize : Nat) :
    Nat → Nat → List α → List (QueueJob α) → List (Chunk α) → IngestOut α
  | _, lastRow, batch, acc, [] =>
      if batch.isEmpty then ⟨acc, false⟩
      else ⟨acc ++ [⟨mkJobId fileKey lastRow, batch, lastRow⟩], false⟩
  | ce, lastRow, batch, acc, Chunk.ok row :: rest =>
      let lastRow' := lastRow + 1
      let batch' := batch ++ [row]
      if batchSize ≤ batch'.length then
        runIngestAux fileKey batchSize 0 lastRow' []
          (acc ++ [⟨mkJobId fileKey lastRow', batch', lastRow'⟩]) rest
      else
        runIngestAux fileKey batchSize ce lastRow' batch' acc rest
  | ce, lastRow, batch, acc, Chunk.err :: rest =>
      let ce' := ce + 1
      let lastRow' := lastRow + 1
      if 3 ≤ ce' then ⟨acc, true⟩
      else runIngestAux fileKey batchSize ce' lastRow' batch acc rest

/-- Ingest of one feed from a fresh state. -/
def runIngest {α : Type} (fileKey : String) (batchSize : Nat)
    (chunks : List (Chunk α)) : IngestOut α :=
  runIngestAux fileKey batchSize 0 0 [] [] chunks

/-- Modelled from the spec: the JobQueue contract of the external Bull queue
backend — "Duplicate enqueue of the same `jobId` is suppressed".  The queue
is the list of jobs that will be delivered; adding a job whose id is already
present leaves the queue unchanged. -/
def enqueue {α : Type} (q : List (QueueJob α)) (j : QueueJob α) :
    List (QueueJob α) :=
  if q.any (fun x => x.jid == j.jid) then q else q ++ [j]

/-- Cumulative-index predicate: `cumOk n jobs` states that the jobs' `lastProcessedRow` fields are the
running totals of batch lengths starting from `n`: each job's
`lastProcessedRow` is the (1-based) feed index of the final row of its
batch. -/
def cumOk {α : Type} : Nat → List (QueueJob α) → Prop
  | _, [] => True
  | n, j :: rest =>
      j.lastProcessedRow = n + j.batch.length ∧ cumOk (n + j.batch.length) rest

/-- C8 counterexample: the job id is not a function of
`(feedKey, lastRowIndexOfBatch)` alone.  Ingesting a feed whose single row
parses and whose second chunk errors produces the tail job
`⟨"f.csv-2", [7], 2⟩`; ingesting the same single row without the trailing
error produces `⟨"f.csv-1", [7], 1⟩`.  Both jobs carry the identical batch
(the same row range of the same feed), yet their ids differ, so enqueuing
both yields two deliveries instead of one. -/
theorem jobId_not_function_of_row_range :
    (runIngest "f.csv" 2 [Chunk.ok 7, Chunk.err]).jobs
        = [(⟨"f.csv-2", [7], 2⟩ : QueueJob Nat)] ∧
      (runIngest "f.csv" 2 [Chunk.ok 7]).jobs
        = [(⟨"f.csv-1", [7], 1⟩ : QueueJob Nat)] ∧
      ("f.csv-2" : String) ≠ "f.csv-1" ∧
      (enqueue (enqueue ([] : List (QueueJob Nat)) ⟨"f.csv-2", [7], 2⟩)
          ⟨"f.csv-1", [7], 1⟩).length = 2 := by
  decide

theorem runIngestAux_jid {α : Type} (fileKey : String) (batchSize : Nat)
    (chunks : List (Chunk α)) :
    ∀ ce lastRow batch acc,
      (∀ j ∈ acc, QueueJob.jid j = mkJobId fileKey j.lastProcessedRow) →
      ∀ j ∈ (runIngestAux fileKey batchSize ce lastRow batch acc chunks).jobs,
        QueueJob.jid j = mkJobId fileKey j.lastProcessedRow := by
  induction chunks with
  | nil =>
      intro ce lastRow batch acc hacc j hj
      unfold runIngestAux at hj
      by_cases hb : batch.isEmpty
      · rw [if_pos hb] at hj; exact hacc j hj
      · rw [if_neg hb] at hj
        simp only [List.mem_append, List.mem_singleton] at hj
        rcases hj with hj | hj
        · exact hacc j hj
        · subst hj; rfl
  | cons c rest ih =>
      intro ce lastRow batch acc hacc j hj
      cases c with
      | ok row =>
          unfold runIngestAux at hj
          by_cases hfull : batchSize ≤ (batch ++ [row]).length
          · rw [if_pos hfull] at hj
            refine ih 0 (lastRow + 1) []
              (acc ++ [⟨mkJobId fileKey (lastRow + 1), batch ++ [row], lastRow + 1⟩])
              ?_ j hj
            intro x hx
            simp only [List.mem_append, List.mem_singleton] at hx
            rcases hx with hx | hx
            · exact hacc x hx
            · subst hx; rfl
          · rw [if_neg hfull] at hj
            exact ih ce (lastRow + 1) (batch ++ [row]) acc hacc j hj
      | err =>
          unfold runIngestAux at hj
          by_cases h3 : 3 ≤ ce + 1
          · rw [if_pos h3] at hj; exact hacc j hj
          · rw [if_neg h3] at hj
            exact ih (ce + 1) (lastRow + 1) batch acc hacc j hj

theorem runIngestAux_ok {α : Type} (fileKey : String) (batchSize : Nat)
    (rows : List α) :
    ∀ ce e batch acc,
      ∃ js, (runIngestAux fileKey batchSize ce (e + batch.length) batch acc
              (rows.map Chunk.ok)).jobs = acc ++ js ∧
        cumOk e js ∧ (js.map (fun j => j.batch)).flatten = batch ++ rows ∧
        (runIngestAux fileKey batchSize ce (e + batch.length) batch acc
            (rows.map Chunk.ok)).aborted = false := by
  induction rows with
  | nil =>
      intro ce e batch acc
      by_cases hb : batch.isEmpty
      · refine ⟨[], ?_, trivial, ?_, ?_⟩
        · simp [runIngestAux, hb]
        · simp [List.isEmpty_iff.mp hb]
        · simp [runIngestAux, hb]
      · refine ⟨[⟨mkJobId fileKey (e + batch.length), batch, e + batch.length⟩],
          ?_, ⟨rfl, trivial⟩, ?_, ?_⟩
        · simp [runIngestAux, hb]
        · simp
        · simp [runIngestAux, hb]
  | cons r rest ih =>
      intro ce e batch acc
      simp only [List.map_cons]
      have hlen1 : e + (batch ++ [r]).length = e + batch.length + 1 := by
        simp only [List.length_append, List.length_cons, List.length_nil]
        omega
      by_cases hfull : batchSize ≤ (batch ++ [r]).length
      · have hkey : runIngestAux fileKey batchSize ce (e + batch.length) batch acc
            (Chunk.ok r :: rest.map Chunk.ok)
            = runIngestAux fileKey batchSize 0 (e + batch.length + 1) []
                (acc ++ [⟨mkJobId fileKey (e + batch.length + 1), batch ++ [r],
                  e + batch.length + 1⟩]) (rest.map Chunk.ok) := by
          simp only [runIngestAux]
          rw [if_pos hfull]
        obtain ⟨js, hjs, hcum, hjoin, habort⟩ :=
          ih 0 (e + batch.length + 1) []
            (acc ++ [⟨mkJobId fileKey (e + batch.length + 1), batch ++ [r],
              e + batch.length + 1⟩])
        simp only [List.length_nil, Nat.add_zero] at hjs habort hjoin
        simp only [List.nil_append] at hjoin
        refine ⟨⟨mkJobId fileKey (e + batch.length + 1), batch ++ [r],
            e + batch.length + 1⟩ :: js, ?_, ?_, ?_, ?_⟩
        · rw [hkey, hjs]; simp
        · refine ⟨by rw [hlen1], ?_⟩
          rw [hlen1]; exact hcum
        · simp only [List.map_cons, List.flatten_cons]
          rw [hjoin]; simp
        · rw [hkey]; exact habort
      · have hkey : runIngestAux fileKey batchSize ce (e + batch.length) batch acc
            (Chunk.ok r :: rest.map Chunk.ok)
            = runIngestAux fileKey batchSize ce (e + batch.length + 1)
                (batch ++ [r]) acc (rest.map Chunk.ok) := by
          simp only [runIngestAux]
          rw [if_neg hfull]
        obtain ⟨js, hjs, hcum, hjoin, habort⟩ := ih ce e (batch ++ [r]) acc
        rw [hlen1] at hjs habort
        refine ⟨js, by rw [hkey]; exact hjs, hcum, ?_, by rw [hkey]; exact habort⟩
        rw [hjoin]; simp

/-- C8 (amended): every job enqueued by the ingestor carries
`jobId = mkJobId feedKey lastProcessedRow` built from its own
`lastProcessedRow` field; in an ingest without row errors the
`lastProcessedRow` of each job is exactly the feed index of the final row of
its batch (the jobs' batches partition the rows in order), so there the id is
the file key concatenated with the index of the batch's final row; and
enqueuing a job with an id already present in the queue is suppressed, so
the same job enqueued twice yields exactly one delivery. -/
theorem ingest_jobId_deterministic {α : Type} (fileKey : String)
    (batchSize : Nat) (chunks : List (Chunk α)) (rows : List α) :
    (∀ j ∈ (runIngest fileKey batchSize chunks).jobs,
        QueueJob.jid j = mkJobId fileKey j.lastProcessedRow) ∧
      (cumOk 0 (runIngest fileKey batchSize (rows.map Chunk.ok)).jobs ∧
        (((runIngest fileKey batchSize (rows.map Chunk.ok)).jobs.map
            (fun j => j.batch)).flatten = rows)) ∧
      (∀ (q : List (QueueJob α)) (j : QueueJob α),
        enqueue (enqueue q j) j = enqueue q j) := by
  refine ⟨?_, ?_, ?_⟩
  · exact runIngestAux_jid fileKey batchSize chunks 0 0 [] [] (by intro j hj; cases hj)
  · obtain ⟨js, hjs, hcum, hjoin, _⟩ :=
      runIngestAux_ok fileKey batchSize rows 0 0 [] []
    unfold runIngest
    simp only [List.length_nil, Nat.add_zero] at hjs
    rw [hjs]
    simp only [List.nil_append]
    exact ⟨hcum, by simpa using hjoin⟩
  · intro q j
    by_cases h : (q.any fun x => x.jid == j.jid) = true
    · simp [enqueue, h]
    · have h2 : ((q ++ [j]).any fun x => x.jid == j.jid) = true := by
        simp [List.any_append]
      simp [enqueue, h, h2]

/-- C8 witness: the amended theorem applied to a concrete error-free ingest
of one row. -/
theorem ingest_jobId_deterministic_witness :
    cumOk 0 (runIngest "w.csv" 2 (([5] : List Nat).map Chunk.ok)).jobs ∧
      ((runIngest "w.csv" 2 (([5] : List Nat).map Chunk.ok)).jobs.map
        (fun j => j.batch)).flatten = [5] :=
  (ingest_jobId_deterministic "w.csv" 2 (([5] : List Nat).map Chunk.ok) [5]).2.1

/-- C9: a run of fewer than three consecutive exceptions is claimed to be
tolerated — errors separated by successfully processed rows should never
abort the ingest.  The code resets `consecutiveErrors` only when a full
batch is enqueued, so with `batchSize = 10` the chunk sequence
error, row, error, row, error aborts the ingest even though no two errors
are consecutive. -/
theorem ingest_aborts_on_separated_errors :
    (runIngest "feed.csv" 10
        [Chunk.err, Chunk.ok 0, Chunk.err, Chunk.ok 0, Chunk.err]
        : IngestOut Nat).aborted = true := by
  decide

/-! ## Text normalization (batch-helpers.js, `normalizeText`) -/

/-- The whitespace class used by the JavaScript `\s` regex class and
`String.prototype.trim`, restricted to the whitespace characters that occur
in the feeds: space, tab, line feed and carriage return. -/
def isWs (c : Char) : Bool :=
  c == ' ' || c == '\t' || c == '\n' || c == '\r'

theorem dropWhile_length_le (p : Char → Bool) (l : List Char) :
    (l.dropWhile p).length ≤ l.length := by
  induction l with
  | nil => simp
  | cons c rest ih =>
      by_cases h : p c
      · simp only [List.dropWhile_cons, h, if_true, List.length_cons]
        omega
      · simp [List.dropWhile_cons, h]

/-- Modelled from the spec: the external `string-strip-html` npm library
(HTML-stripping is out of scope of the repository; only its contract —
"strip HTML" — is fixed).  A complete `<`…`>` span is removed; a `<` with no
later `>` is kept literally together with the rest of the text. -/
def stripTags : List Char → List Char
  | [] => []
  | c :: rest =>
    if c = '<' then
      if ('>' : Char) ∈ rest then
        stripTags ((rest.dropWhile (fun x => x ≠ '>')).tail)
      else c :: rest
    else c :: stripTags rest
termination_by s => s.length
decreasing_by
  · have h1 : (rest.dropWhile (fun x => x ≠ '>')).length ≤ rest.length :=
      dropWhile_length_le _ rest
    have h2 : ((rest.dropWhile (fun x => x ≠ '>')).tail).length
        ≤ (rest.dropWhile (fun x => x ≠ '>')).length := by
      cases rest.dropWhile (fun x => x ≠ '>') <;> simp
    simp only [List.length_cons]
    omega
  · simp only [List.length_cons]; omega

/-- JavaScript `String.prototype.trim`: drop whitespace from both ends. -/
def trimWs (s : List Char) : List Char :=
  ((s.dropWhile isWs).reverse.dropWhile isWs).reverse

/-- JavaScript `String.prototype.replace(pat, rep)` with a global literal
pattern: leftmost non-overlapping occurrences of `pat` are replaced by
`rep`. -/
def replaceAll (pat rep : List Char) : List Char → List Char
  | [] => []
  | c :: rest =>
    if pat ≠ [] ∧ isPre pat (c :: rest) = true then
      rep ++ replaceAll pat rep ((c :: rest).drop pat.length)
    else c :: replaceAll pat rep rest
termination_by s => s.length
decreasing_by
  · rename_i hcond
    have hne : pat ≠ [] := hcond.1
    have hlen : 1 ≤ pat.length := by
      cases pat with
      | nil => exact absurd rfl hne
      | cons a as => simp
    simp only [List.length_drop, List.length_cons]
    omega
  · simp only [List.length_cons]; omega

/-- JavaScript `replace(/\s+/g, " ")`: every maximal run of whitespace is
replaced by a single space. -/
def collapseWs : List Char → List Char
  | [] => []
  | c :: rest =>
    if isWs c then ' ' :: collapseWs (rest.dropWhile isWs)
    else c :: collapseWs rest
termination_by s => s.length
decreasing_by
  · have h1 : (rest.dropWhile isWs).length ≤ rest.length :=
      dropWhile_length_le _ rest
    simp only [List.length_cons]
    omega
  · simp only [List.length_cons]; omega

/-- The pattern `¬Æ` replaced by `®`. -/
def regPat : List Char := ['¬', 'Æ']

/-- The replacement for `regPat`. -/
def regRep : List Char := ['®']

/-- The literal pattern `&deg;` replaced by `°`. -/
def degPat : List Char := ['&', 'd', 'e', 'g', ';']

/-- The replacement for `degPat`. -/
def degRep : List Char := ['°']

/-- Embedding of `normalizeText` from batch-helpers.js.  A falsy input
(`undefined`, `null` or the empty string) yields the empty string; otherwise
the HTML is stripped, the result trimmed, the sequences `¬Æ` and `&deg;`
replaced by `®` and `°`, and whitespace runs collapsed to single spaces. -/
def normalizeText : Option (List Char) → List Char
  | none => []
  | some s =>
    if s = [] then []
    else collapseWs (replaceAll degPat degRep (replaceAll regPat regRep
      (trimWs (stripTags s))))

/-! ### Helper lemmas about `dropWhile`, `occurs` and membership -/

theorem dropWhile_decomp (p : Char → Bool) (l : List Char) :
    ∃ t, l = t ++ l.dropWhile p := by
  induction l with
  | nil => exact ⟨[], rfl⟩
  | cons c rest ih =>
      by_cases h : p c
      · obtain ⟨t, ht⟩ := ih
        refine ⟨c :: t, ?_⟩
        simp only [List.dropWhile_cons, h, if_true, List.cons_append]
        exact congrArg (c :: ·) ht
      · exact ⟨[], by simp [List.dropWhile_cons, h]⟩

theorem mem_of_dropWhile (p : Char → Bool) (l : List Char) (x : Char)
    (h : x ∈ l.dropWhile p) : x ∈ l := by
  obtain ⟨t, ht⟩ := dropWhile_decomp p l
  rw [ht]
  exact List.mem_append_right t h

theorem occurs_append_right (pat a b : List Char) (h : occurs pat b = true) :
    occurs pat (a ++ b) = true := by
  induction a with
  | nil => simpa
  | cons c a' ih => simp [occurs, ih]

theorem occurs_of_dropWhile (pat : List Char) (p : Char → Bool) (l : List Char)
    (h : occurs pat (l.dropWhile p) = true) : occurs pat l = true := by
  obtain ⟨t, ht⟩ := dropWhile_decomp p l
  rw [ht]
  exact occurs_append_right pat t _ h

theorem occurs_of_drop (pat : List Char) (n : Nat) (l : List Char)
    (h : occurs pat (l.drop n) = true) : occurs pat l = true := by
  have := occurs_append_right pat (l.take n) (l.drop n) h
  rwa [List.take_append_drop] at this

theorem mem_replaceAll (pat rep : List Char) (s : List Char) (x : Char)
    (h : x ∈ replaceAll pat rep s) : x ∈ s ∨ x ∈ rep := by
  induction s using replaceAll.induct pat rep with
  | case1 => rw [replaceAll] at h; cases h
  | case2 c rest hcond ih =>
      rw [replaceAll, if_pos hcond] at h
      rcases List.mem_append.mp h with hx | hx
      · exact Or.inr hx
      · rcases ih hx with hx2 | hx2
        · exact Or.inl (List.mem_of_mem_drop hx2)
        · exact Or.inr hx2
  | case3 c rest hcond ih =>
      rw [replaceAll, if_neg hcond] at h
      rcases List.mem_cons.mp h with hx | hx
      · exact Or.inl (hx ▸ List.mem_cons_self c rest)
      · rcases ih hx with hx2 | hx2
        · exact Or.inl (List.mem_cons_of_mem c hx2)
        · exact Or.inr hx2

theorem mem_collapseWs (s : List Char) (x : Char) (h : x ∈ collapseWs s) :
    x ∈ s ∨ x = ' ' := by
  induction s using collapseWs.induct with
  | case1 => rw [collapseWs] at h; cases h
  | case2 c rest hws ih =>
      rw [collapseWs, if_pos hws] at h
      rcases List.mem_cons.mp h with hx | hx
      · exact Or.inr hx
      · rcases ih hx with hx2 | hx2
        · exact Or.inl (List.mem_cons_of_mem c (mem_of_dropWhile _ _ _ hx2))
        · exact Or.inr hx2
  | case3 c rest hws ih =>
      rw [collapseWs, if_neg hws] at h
      rcases List.mem_cons.mp h with hx | hx
      · exact Or.inl (hx ▸ List.mem_cons_self c rest)
      · rcases ih hx with hx2 | hx2
        · exact Or.inl (List.mem_cons_of_mem c hx2)
        · exact Or.inr hx2

theorem isPre_cons_of_ne (p0 c : Char) (p' t : List Char) (h : p0 ≠ c) :
    isPre (p0 :: p') (c :: t) = false := by
  simp [isPre, h]

theorem isPre_cons_iff (p0 c : Char) (p' t : List Char) :
    isPre (p0 :: p') (c :: t) = true ↔ p0 = c ∧ isPre p' t = true := by
  simp [isPre, Bool.and_eq_true, beq_iff_eq]

theorem occurs_append_disjoint (pat a b : List Char) (hpat : pat ≠ [])
    (hd : ∀ c ∈ a, c ∉ pat) : occurs pat (a ++ b) = occurs pat b := by
  induction a with
  | nil => rfl
  | cons c a' ih =>
      have hc : c ∉ pat := hd c (List.mem_cons_self c a')
      have hpre : isPre pat (c :: (a' ++ b)) = false := by
        cases pat with
        | nil => exact absurd rfl hpat
        | cons p0 p' =>
            refine isPre_cons_of_ne p0 c p' _ ?_
            intro he
            exact hc (he ▸ List.mem_cons_self p0 p')
      have hrest := ih (fun x hx => hd x (List.mem_cons_of_mem c hx))
      simp [occurs, hpre, hrest]

theorem isPre_replaceAll (pat rep : List Char) (hrep : rep ≠ []) :
    ∀ s q, (∀ c ∈ q, c ∉ rep) →
      isPre q (replaceAll pat rep s) = true → isPre q s = true := by
  intro s
  induction s using replaceAll.induct pat rep with
  | case1 =>
      intro q hq h
      rw [replaceAll] at h
      cases q with
      | nil => rfl
      | cons q0 q' => exact absurd h (by simp [isPre])
  | case2 c rest hcond ih =>
      intro q hq h
      rw [replaceAll, if_pos hcond] at h
      cases q with
      | nil => rfl
      | cons q0 q' =>
          cases rep with
          | nil => exact absurd rfl hrep
          | cons r0 r' =>
              rw [List.cons_append] at h
              have h0 : q0 = r0 := ((isPre_cons_iff q0 r0 q' _).mp h).1
              exact absurd (h0 ▸ List.mem_cons_self r0 r')
                (hq q0 (List.mem_cons_self q0 q'))
  | case3 c rest hcond ih =>
      intro q hq h
      rw [replaceAll, if_neg hcond] at h
      cases q with
      | nil => rfl
      | cons q0 q' =>
          obtain ⟨h0, h1⟩ := (isPre_cons_iff q0 c q' _).mp h
          have hq' : ∀ x ∈ q', x ∉ rep := fun x hx => hq x (List.mem_cons_of_mem q0 hx)
          exact (isPre_cons_iff q0 c q' rest).mpr ⟨h0, ih q' hq' h1⟩

theorem isPre_collapseWs :
    ∀ s q, (∀ c ∈ q, isWs c = false) →
      isPre q (collapseWs s) = true → isPre q s = true := by
  intro s
  induction s using collapseWs.induct with
  | case1 =>
      intro q hq h
      rw [collapseWs] at h
      cases q with
      | nil => rfl
      | cons q0 q' => exact absurd h (by simp [isPre])
  | case2 c rest hws ih =>
      intro q hq h
      rw [collapseWs, if_pos hws] at h
      cases q with
      | nil => rfl
      | cons q0 q' =>
          have h0 : q0 = ' ' := ((isPre_cons_iff q0 ' ' q' _).mp h).1
          have : isWs q0 = false := hq q0 (List.mem_cons_self q0 q')
          rw [h0] at this
          exact absurd this (by simp [isWs])
  | case3 c rest hws ih =>
      intro q hq h
      rw [collapseWs, if_neg hws] at h
      cases q with
      | nil => rfl
      | cons q0 q' =>
          obtain ⟨h0, h1⟩ := (isPre_cons_iff q0 c q' _).mp h
          have hq' : ∀ x ∈ q', isWs x = false := fun x hx => hq x (List.mem_cons_of_mem q0 hx)
          exact (isPre_cons_iff q0 c q' rest).mpr ⟨h0, ih q' hq' h1⟩

theorem occurs_replaceAll_self (pat rep : List Char) (hpat : pat ≠ [])
    (hrep : rep ≠ []) (hd : ∀ c ∈ rep, c ∉ pat) :
    ∀ s, occurs pat (replaceAll pat rep s) = false := by
  intro s
  induction s using replaceAll.induct pat rep with
  | case1 =>
      rw [replaceAll]
      simpa [occurs, List.isEmpty_iff] using hpat
  | case2 c rest hcond ih =>
      rw [replaceAll, if_pos hcond, occurs_append_disjoint pat rep _ hpat hd]
      exact ih
  | case3 c rest hcond ih =>
      rw [replaceAll, if_neg hcond]
      have hnp : isPre pat (c :: rest) = false := by
        by_cases hp : pat = []
        · exact absurd hp hpat
        · cases hip : isPre pat (c :: rest) with
          | false => rfl
          | true => exact absurd ⟨hp, hip⟩ hcond
      have hout : isPre pat (c :: replaceAll pat rep rest) = false := by
        cases pat with
        | nil => exact absurd rfl hpat
        | cons p0 p' =>
            cases hip : isPre (p0 :: p') (c :: replaceAll (p0 :: p') rep rest) with
            | false => rfl
            | true =>
                obtain ⟨h0, h1⟩ := (isPre_cons_iff p0 c p' _).mp hip
                have hp' : ∀ x ∈ p', x ∉ rep := by
                  intro x hx hxr
                  exact (hd x hxr) (List.mem_cons_of_mem p0 hx)
                have h2 := isPre_replaceAll (p0 :: p') rep hrep rest p' hp' h1
                have h3 := (isPre_cons_iff p0 c p' rest).mpr ⟨h0, h2⟩
                simp [h3] at hnp
      simp [occurs, hout, ih]

theorem occurs_replaceAll_other (pat rep q : List Char) (hrep : rep ≠ [])
    (hq : q ≠ []) (hd : ∀ c ∈ rep, c ∉ q) :
    ∀ s, occurs q s = false → occurs q (replaceAll pat rep s) = false := by
  intro s
  induction s using replaceAll.induct pat rep with
  | case1 => intro h; rw [replaceAll]; exact h
  | case2 c rest hcond ih =>
      intro h
      rw [replaceAll, if_pos hcond, occurs_append_disjoint q rep _ hq hd]
      refine ih ?_
      cases ho : occurs q ((c :: rest).drop pat.length) with
      | false => rfl
      | true => rw [occurs_of_drop q pat.length (c :: rest) ho] at h; cases h
  | case3 c rest hcond ih =>
      intro h
      rw [replaceAll, if_neg hcond]
      have hparts : isPre q (c :: rest) = false ∧ occurs q rest = false := by
        have := h
        rw [occurs] at this
        exact ⟨by cases hx : isPre q (c :: rest) <;> simp [hx] at this ⊢,
          by cases hx : occurs q rest <;> simp [hx] at this ⊢⟩
      have hR := ih hparts.2
      have hpre : isPre q (c :: replaceAll pat rep rest) = false := by
        cases q with
        | nil => exact absurd rfl hq
        | cons q0 q' =>
            cases hip : isPre (q0 :: q') (c :: replaceAll pat rep rest) with
            | false => rfl
            | true =>
                obtain ⟨h0, h1⟩ := (isPre_cons_iff q0 c q' _).mp hip
                have hq' : ∀ x ∈ q', x ∉ rep := by
                  intro x hx hxr
                  exact (hd x hxr) (List.mem_cons_of_mem q0 hx)
                have h2 := isPre_replaceAll pat rep hrep rest q' hq' h1
                have h3 := (isPre_cons_iff q0 c q' rest).mpr ⟨h0, h2⟩
                simp [h3] at hparts
      simp [occurs, hpre, hR]

theorem occurs_collapseWs_other (q : List Char) (hq : q ≠ [])
    (hnw : ∀ c ∈ q, isWs c = false) :
    ∀ s, occurs q s = false → occurs q (collapseWs s) = false := by
  intro s
  induction s using collapseWs.induct with
  | case1 => intro h; rw [collapseWs]; exact h
  | case2 c rest hws ih =>
      intro h
      rw [collapseWs, if_pos hws]
      have hparts : occurs q rest = false := by
        rw [occurs] at h
        cases hx : occurs q rest with
        | false => rfl
        | true => simp [hx] at h
      have hdrop : occurs q (rest.dropWhile isWs) = false := by
        cases hx : occurs q (rest.dropWhile isWs) with
        | false => rfl
        | true => rw [occurs_of_dropWhile q isWs rest hx] at hparts; cases hparts
      have hX := ih hdrop
      have hpre : isPre q (' ' :: collapseWs (rest.dropWhile isWs)) = false := by
        cases q with
        | nil => exact absurd rfl hq
        | cons q0 q' =>
            cases hip : isPre (q0 :: q') (' ' :: collapseWs (rest.dropWhile isWs)) with
            | false => rfl
            | true =>
                have h0 : q0 = ' ' := ((isPre_cons_iff q0 ' ' q' _).mp hip).1
                have := hnw q0 (List.mem_cons_self q0 q')
                rw [h0] at this
                simp [isWs] at this
      simp [occurs, hpre, hX]
  | case3 c rest hws ih =>
      intro h
      rw [collapseWs, if_neg hws]
      have hparts : isPre q (c :: rest) = false ∧ occurs q rest = false := by
        rw [occurs] at h
        exact ⟨by cases hx : isPre q (c :: rest) <;> simp [hx] at h ⊢,
          by cases hx : occurs q rest <;> simp [hx] at h ⊢⟩
      have hR := ih hparts.2
      have hpre : isPre q (c :: collapseWs rest) = false := by
        cases q with
        | nil => exact absurd rfl hq
        | cons q0 q' =>
            cases hip : isPre (q0 :: q') (c :: collapseWs rest) with
            | false => rfl
            | true =>
                obtain ⟨h0, h1⟩ := (isPre_cons_iff q0 c q' _).mp hip
                have hq' : ∀ x ∈ q', isWs x = false :=
                  fun x hx => hnw x (List.mem_cons_of_mem q0 hx)
                have h2 := isPre_collapseWs rest q' hq' h1
                have h3 := (isPre_cons_iff q0 c q' rest).mpr ⟨h0, h2⟩
                simp [h3] at hparts
      simp [occurs, hpre, hR]

theorem replaceAll_id_of_no_occurs (pat rep s : List Char)
    (h : occurs pat s = false) : replaceAll pat rep s = s := by
  induction s with
  | nil => rw [replaceAll]
  | cons c rest ih =>
      rw [occurs] at h
      have h1 : isPre pat (c :: rest) = false := by
        cases hx : isPre pat (c :: rest) with
        | false => rfl
        | true => simp [hx] at h
      have h2 : occurs pat rest = false := by
        cases hx : occurs pat rest with
        | false => rfl
        | true => simp [hx] at h
      rw [replaceAll, if_neg (by intro hcond; rw [h1] at hcond; cases hcond.2), ih h2]

/-! ### Tag-freedom: after stripping, no kept `<` is followed by a `>` -/

/-- Predicate `P1 s` holds when no `<` in `s` has a `>` anywhere after it, so a second
pass of `stripTags` removes nothing. -/
def P1 : List Char → Prop
  | [] => True
  | c :: rest => (c = '<' → ('>' : Char) ∉ rest) ∧ P1 rest

theorem p1_of_not_mem (s : List Char) (h : ('>' : Char) ∉ s) : P1 s := by
  induction s with
  | nil => trivial
  | cons c rest ih =>
      refine ⟨fun _ => fun hm => h (List.mem_cons_of_mem c hm), ih ?_⟩
      intro hm
      exact h (List.mem_cons_of_mem c hm)

theorem p1_of_append_left (a b : List Char) (h : P1 (a ++ b)) : P1 a := by
  induction a with
  | nil => trivial
  | cons c a' ih =>
      rw [List.cons_append] at h
      exact ⟨fun hc hm => h.1 hc (List.mem_append_left b hm), ih h.2⟩

theorem p1_of_append_right (a b : List Char) (h : P1 (a ++ b)) : P1 b := by
  induction a with
  | nil => exact h
  | cons c a' ih =>
      rw [List.cons_append] at h
      exact ih h.2

theorem p1_append (a b : List Char) (ha : ∀ c ∈ a, c ≠ '<') (hb : P1 b) :
    P1 (a ++ b) := by
  induction a with
  | nil => exact hb
  | cons c a' ih =>
      rw [List.cons_append]
      refine ⟨fun hc => absurd hc (ha c (List.mem_cons_self c a')), ?_⟩
      exact ih (fun x hx => ha x (List.mem_cons_of_mem c hx))

theorem p1_drop (s : List Char) (n : Nat) (h : P1 s) : P1 (s.drop n) := by
  have hdec := (List.take_append_drop n s).symm
  rw [hdec] at h
  exact p1_of_append_right _ _ h

theorem p1_dropWhile (p : Char → Bool) (s : List Char) (h : P1 s) :
    P1 (s.dropWhile p) := by
  obtain ⟨t, ht⟩ := dropWhile_decomp p s
  exact p1_of_append_right t _ (ht ▸ h)

theorem p1_tail (s : List Char) (h : P1 s) : P1 s.tail := by
  cases s with
  | nil => trivial
  | cons c rest => exact h.2

theorem p1_stripTags (s : List Char) : P1 (stripTags s) := by
  induction s using stripTags.induct with
  | case1 => rw [stripTags]; trivial
  | case2 rest hmem ih =>
      rw [stripTags, if_pos rfl, if_pos hmem]
      exact ih
  | case3 rest hmem =>
      rw [stripTags, if_pos rfl, if_neg hmem]
      exact ⟨fun _ => hmem, p1_of_not_mem rest hmem⟩
  | case4 c rest hlt ih =>
      rw [stripTags, if_neg hlt]
      refine ⟨fun hc => absurd hc hlt, ih⟩

theorem stripTags_id_of_p1 (s : List Char) (h : P1 s) : stripTags s = s := by
  induction s with
  | nil => rw [stripTags]
  | cons c rest ih =>
      by_cases hc : c = '<'
      · rw [stripTags, if_pos hc, if_neg (h.1 hc)]
      · rw [stripTags, if_neg hc, ih h.2]

theorem p1_trimWs (s : List Char) (h : P1 s) : P1 (trimWs s) := by
  have ha : P1 (s.dropWhile isWs) := p1_dropWhile isWs s h
  obtain ⟨t, ht⟩ := dropWhile_decomp isWs (s.dropWhile isWs).reverse
  unfold trimWs
  refine p1_of_append_left _ t.reverse ?_
  have : s.dropWhile isWs
      = ((s.dropWhile isWs).reverse.dropWhile isWs).reverse ++ t.reverse := by
    have := congrArg List.reverse ht
    simpa [List.reverse_append] using this
  exact this ▸ ha

theorem p1_replaceAll (pat rep : List Char)
    (hrep : ∀ c ∈ rep, c ≠ '<' ∧ c ≠ '>') (s : List Char) (h : P1 s) :
    P1 (replaceAll pat rep s) := by
  induction s using replaceAll.induct pat rep with
  | case1 => rw [replaceAll]; trivial
  | case2 c rest hcond ih =>
      rw [replaceAll, if_pos hcond]
      exact p1_append rep _ (fun x hx => (hrep x hx).1)
        (ih (p1_drop (c :: rest) pat.length h))
  | case3 c rest hcond ih =>
      rw [replaceAll, if_neg hcond]
      refine ⟨?_, ih h.2⟩
      intro hc hm
      rcases mem_replaceAll pat rep rest '>' hm with hx | hx
      · exact h.1 hc hx
      · exact (hrep '>' hx).2 rfl

theorem p1_collapseWs (s : List Char) (h : P1 s) : P1 (collapseWs s) := by
  induction s using collapseWs.induct with
  | case1 => rw [collapseWs]; trivial
  | case2 c rest hws ih =>
      rw [collapseWs, if_pos hws]
      refine ⟨fun hsp => absurd hsp (by decide), ?_⟩
      exact ih (p1_dropWhile isWs rest h.2)
  | case3 c rest hws ih =>
      rw [collapseWs, if_neg hws]
      refine ⟨?_, ih h.2⟩
      intro hc hm
      rcases mem_collapseWs rest '>' hm with hx | hx
      · exact h.1 hc hx
      · exact absurd hx (by decide)

/-! ### Trimmed-ness: the pipeline output has no edge whitespace -/

/-- The first character, when present, is not whitespace. -/
def headOk (s : List Char) : Prop := ∀ c, s.head? = some c → isWs c = false

/-- The last character, when present, is not whitespace. -/
def lastOk (s : List Char) : Prop := ∀ c, s.getLast? = some c → isWs c = false

theorem mem_of_getLast_opt (l : List Char) (a : Char) (h : l.getLast? = some a) :
    a ∈ l := by
  rw [← List.head?_reverse] at h
  exact List.mem_reverse.mp (List.mem_of_mem_head? h)

theorem headOk_dropWhile (l : List Char) : headOk (l.dropWhile isWs) := by
  induction l with
  | nil => intro c hc; cases hc
  | cons a rest ih =>
      by_cases h : isWs a
      · rw [List.dropWhile_cons, if_pos h]; exact ih
      · rw [List.dropWhile_cons, if_neg h]
        intro c hc
        rw [List.head?_cons, Option.some_inj] at hc
        exact hc ▸ (by simpa using h)

theorem dropWhile_id_of_headOk (l : List Char) (h : headOk l) :
    l.dropWhile isWs = l := by
  cases l with
  | nil => rfl
  | cons c rest =>
      have := h c (by rw [List.head?_cons])
      rw [List.dropWhile_cons, if_neg (by simp [this])]

theorem trimWs_id (s : List Char) (h1 : headOk s) (h2 : lastOk s) :
    trimWs s = s := by
  unfold trimWs
  rw [dropWhile_id_of_headOk s h1]
  have hrev : headOk s.reverse := by
    intro c hc
    rw [List.head?_reverse] at hc
    exact h2 c hc
  rw [dropWhile_id_of_headOk s.reverse hrev, List.reverse_reverse]

theorem getLast_opt_append_right (x y : List Char) (hy : y ≠ []) :
    (x ++ y).getLast? = y.getLast? := by
  rw [← List.head?_reverse, ← List.head?_reverse, List.reverse_append]
  exact List.head?_append_of_ne_nil y.reverse (by simpa using hy)

theorem getLast_opt_cons_ne (c : Char) (l : List Char) (hl : l ≠ []) :
    (c :: l).getLast? = l.getLast? := by
  have := getLast_opt_append_right [c] l hl
  simpa using this

theorem lastOk_of_cons (c : Char) (l : List Char) (hl : l ≠ [])
    (h : lastOk (c :: l)) : lastOk l := by
  intro x hx
  exact h x (by rw [getLast_opt_cons_ne c l hl]; exact hx)

theorem lastOk_dropWhile (l : List Char) (h : lastOk l) :
    lastOk (l.dropWhile isWs) := by
  obtain ⟨t, ht⟩ := dropWhile_decomp isWs l
  by_cases hd : l.dropWhile isWs = []
  · rw [hd]; intro x hx; cases hx
  · intro x hx
    refine h x ?_
    rw [ht, getLast_opt_append_right t _ hd]
    exact hx

theorem lastOk_drop (l : List Char) (n : Nat) (h : lastOk l) :
    lastOk (l.drop n) := by
  by_cases hd : l.drop n = []
  · rw [hd]; intro x hx; cases hx
  · intro x hx
    refine h x ?_
    rw [← List.take_append_drop n l, getLast_opt_append_right _ _ hd]
    exact hx

theorem headOk_trimWs (s : List Char) : headOk (trimWs s) := by
  intro c hc
  unfold trimWs at hc
  set a := s.dropWhile isWs with ha
  obtain ⟨t, ht⟩ := dropWhile_decomp isWs a.reverse
  have hpre : a = (a.reverse.dropWhile isWs).reverse ++ t.reverse := by
    have := congrArg List.reverse ht
    simpa [List.reverse_append] using this
  have hne : (a.reverse.dropWhile isWs).reverse ≠ [] := by
    intro hnil
    rw [hnil] at hc
    cases hc
  have : a.head? = some c := by
    rw [hpre, List.head?_append_of_ne_nil _ hne]
    exact hc
  exact headOk_dropWhile s c this

theorem lastOk_trimWs (s : List Char) : lastOk (trimWs s) := by
  intro c hc
  unfold trimWs at hc
  rw [List.getLast?_reverse] at hc
  exact headOk_dropWhile (s.dropWhile isWs).reverse c hc

theorem replaceAll_ne_nil (pat rep : List Char) (hrep : rep ≠ [])
    (s : List Char) (hs : s ≠ []) : replaceAll pat rep s ≠ [] := by
  cases s with
  | nil => exact absurd rfl hs
  | cons c rest =>
      by_cases hcond : pat ≠ [] ∧ isPre pat (c :: rest) = true
      · rw [replaceAll, if_pos hcond]
        cases rep with
        | nil => exact absurd rfl hrep
        | cons r0 r' => simp
      · rw [replaceAll, if_neg hcond]
        simp

theorem headOk_replaceAll (pat rep : List Char) (hne : rep ≠ [])
    (hrep : ∀ c ∈ rep, isWs c = false)
    (s : List Char) (h : headOk s) : headOk (replaceAll pat rep s) := by
  cases s with
  | nil => rw [replaceAll]; intro c hc; cases hc
  | cons c rest =>
      by_cases hcond : pat ≠ [] ∧ isPre pat (c :: rest) = true
      · rw [replaceAll, if_pos hcond]
        cases rep with
        | nil => exact absurd rfl hne
        | cons r0 r' =>
            intro x hx
            rw [List.cons_append, List.head?_cons, Option.some_inj] at hx
            exact hx ▸ hrep r0 (List.mem_cons_self r0 r')
      · rw [replaceAll, if_neg hcond]
        intro x hx
        rw [List.head?_cons, Option.some_inj] at hx
        exact hx ▸ h c (by rw [List.head?_cons])

theorem lastOk_rep_all (rep : List Char) (hrep : ∀ c ∈ rep, isWs c = false) :
    lastOk rep := by
  intro c hc
  exact hrep c (mem_of_getLast_opt rep c hc)

theorem replaceAll_nil (pat rep : List Char) : replaceAll pat rep [] = [] := by
  rw [replaceAll]

theorem lastOk_replaceAll (pat rep : List Char) (hne : rep ≠ [])
    (hrep : ∀ c ∈ rep, isWs c = false) :
    ∀ s, lastOk s → lastOk (replaceAll pat rep s) := by
  intro s
  induction s using replaceAll.induct pat rep with
  | case1 => intro _; rw [replaceAll_nil]; intro c hc; cases hc
  | case2 c rest hcond ih =>
      intro h
      rw [replaceAll, if_pos hcond]
      by_cases hd : (c :: rest).drop pat.length = []
      · rw [hd, replaceAll_nil, List.append_nil]
        exact lastOk_rep_all rep hrep
      · have hR : replaceAll pat rep ((c :: rest).drop pat.length) ≠ [] :=
          replaceAll_ne_nil pat rep hne _ hd
        have hlast : lastOk ((c :: rest).drop pat.length) :=
          lastOk_drop (c :: rest) pat.length h
        intro x hx
        rw [getLast_opt_append_right rep _ hR] at hx
        exact ih hlast x hx
  | case3 c rest hcond ih =>
      intro h
      rw [replaceAll, if_neg hcond]
      by_cases hrest : rest = []
      · subst hrest
        rw [replaceAll_nil]
        exact h
      · have hR : replaceAll pat rep rest ≠ [] := replaceAll_ne_nil pat rep hne rest hrest
        have hlast : lastOk rest := lastOk_of_cons c rest hrest h
        intro x hx
        rw [getLast_opt_cons_ne c _ hR] at hx
        exact ih hlast x hx

theorem collapseWs_nil : collapseWs [] = [] := by rw [collapseWs]

theorem collapseWs_ne_nil (s : List Char) (hs : s ≠ []) : collapseWs s ≠ [] := by
  cases s with
  | nil => exact absurd rfl hs
  | cons c rest =>
      by_cases h : isWs c
      · rw [collapseWs, if_pos h]; simp
      · rw [collapseWs, if_neg h]; simp

theorem headOk_collapseWs (s : List Char) (h : headOk s) :
    headOk (collapseWs s) := by
  cases s with
  | nil => rw [collapseWs_nil]; exact h
  | cons c rest =>
      have hc : isWs c = false := h c (by rw [List.head?_cons])
      rw [collapseWs, if_neg (by simp [hc])]
      intro x hx
      rw [List.head?_cons, Option.some_inj] at hx
      exact hx ▸ hc

theorem lastOk_collapseWs : ∀ s, lastOk s → lastOk (collapseWs s) := by
  intro s
  induction s using collapseWs.induct with
  | case1 => intro h; rw [collapseWs_nil]; exact h
  | case2 c rest hws ih =>
      intro h
      rw [collapseWs, if_pos hws]
      by_cases hrest : rest = []
      · subst hrest
        have := h c (by rfl)
        rw [hws] at this
        cases this
      · have hlast : lastOk rest := lastOk_of_cons c rest hrest h
        by_cases hd : rest.dropWhile isWs = []
        · exfalso
          have hall : ∀ x ∈ rest, isWs x = true := List.dropWhile_eq_nil_iff.mp hd
          obtain ⟨x, hx⟩ : ∃ x, rest.getLast? = some x := by
            cases hg : rest.getLast? with
            | none => exact absurd (List.getLast?_eq_none_iff.mp hg) hrest
            | some y => exact ⟨y, rfl⟩
          have h1 := hlast x hx
          have h2 := hall x (mem_of_getLast_opt rest x hx)
          rw [h1] at h2
          cases h2
        · have hX : collapseWs (rest.dropWhile isWs) ≠ [] := collapseWs_ne_nil _ hd
          have hld : lastOk (rest.dropWhile isWs) := lastOk_dropWhile rest hlast
          intro x hx
          rw [getLast_opt_cons_ne ' ' _ hX] at hx
          exact ih hld x hx
  | case3 c rest hws ih =>
      intro h
      rw [collapseWs, if_neg hws]
      by_cases hrest : rest = []
      · subst hrest
        rw [collapseWs_nil]
        exact h
      · have hX : collapseWs rest ≠ [] := collapseWs_ne_nil rest hrest
        have hlast : lastOk rest := lastOk_of_cons c rest hrest h
        intro x hx
        rw [getLast_opt_cons_ne c _ hX] at hx
        exact ih hlast x hx

theorem collapseWs_idem : ∀ s, collapseWs (collapseWs s) = collapseWs s := by
  intro s
  induction s using collapseWs.induct with
  | case1 => rw [collapseWs_nil, collapseWs_nil]
  | case2 c rest hws ih =>
      rw [collapseWs, if_pos hws]
      have hX : headOk (collapseWs (rest.dropWhile isWs)) :=
        headOk_collapseWs _ (headOk_dropWhile rest)
      rw [collapseWs, if_pos (by decide : isWs ' ' = true),
        dropWhile_id_of_headOk _ hX, ih]
  | case3 c rest hws ih =>
      rw [collapseWs, if_neg hws]
      rw [collapseWs, if_neg hws, ih]

/-! ### Idempotence of `normalizeText` -/

/-- The pipeline applied by `normalizeText` to a non-empty string. -/
def normalizePipe (s : List Char) : List Char :=
  collapseWs (replaceAll degPat degRep (replaceAll regPat regRep
    (trimWs (stripTags s))))

theorem normalizePipe_unfold (t : List Char) :
    normalizePipe t = collapseWs (replaceAll degPat degRep (replaceAll regPat
      regRep (trimWs (stripTags t)))) := rfl

theorem normalizeText_some (s : List Char) (hs : s ≠ []) :
    normalizeText (some s) = normalizePipe s := by
  simp only [normalizeText, normalizePipe]
  rw [if_neg hs]

theorem normalizePipe_p1 (s : List Char) : P1 (normalizePipe s) := by
  unfold normalizePipe
  refine p1_collapseWs _ (p1_replaceAll degPat degRep ?_ _
    (p1_replaceAll regPat regRep ?_ _ (p1_trimWs _ (p1_stripTags s))))
  · intro c hc
    rcases List.mem_singleton.mp hc with rfl
    exact ⟨by decide, by decide⟩
  · intro c hc
    rcases List.mem_singleton.mp hc with rfl
    exact ⟨by decide, by decide⟩

theorem normalizePipe_headOk (s : List Char) : headOk (normalizePipe s) := by
  unfold normalizePipe
  refine headOk_collapseWs _ (headOk_replaceAll degPat degRep (by decide) ?_ _
    (headOk_replaceAll regPat regRep (by decide) ?_ _ (headOk_trimWs _)))
  · intro c hc; rcases List.mem_singleton.mp hc with rfl; decide
  · intro c hc; rcases List.mem_singleton.mp hc with rfl; decide

theorem normalizePipe_lastOk (s : List Char) : lastOk (normalizePipe s) := by
  unfold normalizePipe
  refine lastOk_collapseWs _ (lastOk_replaceAll degPat degRep (by decide) ?_ _
    (lastOk_replaceAll regPat regRep (by decide) ?_ _ (lastOk_trimWs _)))
  · intro c hc; rcases List.mem_singleton.mp hc with rfl; decide
  · intro c hc; rcases List.mem_singleton.mp hc with rfl; decide

theorem normalizePipe_no_regPat (s : List Char) :
    occurs regPat (normalizePipe s) = false := by
  unfold normalizePipe
  refine occurs_collapseWs_other regPat (by decide) (by decide) _ ?_
  refine occurs_replaceAll_other degPat degRep regPat (by decide) (by decide)
    (by decide) _ ?_
  exact occurs_replaceAll_self regPat regRep (by decide) (by decide) (by decide) _

theorem normalizePipe_no_degPat (s : List Char) :
    occurs degPat (normalizePipe s) = false := by
  unfold normalizePipe
  refine occurs_collapseWs_other degPat (by decide) (by decide) _ ?_
  exact occurs_replaceAll_self degPat degRep (by decide) (by decide) (by decide) _

theorem normalizePipe_collapse_fixed (s : List Char) :
    collapseWs (normalizePipe s) = normalizePipe s := by
  unfold normalizePipe
  exact collapseWs_idem _

/-- C6: text normalization is idempotent: for every string `s`,
`normalizeText(normalizeText(s)) = normalizeText(s)`, where `normalizeText`
strips HTML, trims, replaces the sequence U+00AC U+00C6 with `®` and the
literal `&deg;` with `°`, and collapses whitespace runs to a single
space. -/
theorem normalizeText_idempotent (s : List Char) :
    normalizeText (some (normalizeText (some s))) = normalizeText (some s) := by
  by_cases hs : s = []
  · subst hs; rfl
  · rw [normalizeText_some s hs]
    by_cases hout : normalizePipe s = []
    · rw [hout]; rfl
    · rw [normalizeText_some _ hout, normalizePipe_unfold (normalizePipe s)]
      rw [stripTags_id_of_p1 _ (normalizePipe_p1 s),
        trimWs_id _ (normalizePipe_headOk s) (normalizePipe_lastOk s),
        replaceAll_id_of_no_occurs regPat regRep _ (normalizePipe_no_regPat s),
        replaceAll_id_of_no_occurs degPat degRep _ (normalizePipe_no_degPat s)]
      exact normalizePipe_collapse_fixed s

/-! ## Reconciler data model (batch-helpers.js) -/

/-- Truthiness of a JavaScript string-or-undefined value: `undefined`,
`null` and `""` are falsy. -/
def truthy : Option (List Char) → Bool
  | none => false
  | some s => !s.isEmpty

/-- One entry of a `meta_data` array: `{ key, value }`, where the value may
be `undefined` (an absent CSV column is passed through verbatim). -/
structure MetaEntry where
  key : List Char
  value : Option (List Char)
deriving DecidableEq

/-- The product-shaped records exchanged with the remote catalog: the
payload built by `createNewData` and the projection built by
`filterCurrentData` both have this shape. -/
structure ProductData where
  id : Option Nat := none
  part_number : Option (List Char) := none
  sku : Option (List Char) := none
  description : Option (List Char) := none
  meta_data : List MetaEntry := []
deriving DecidableEq

/-- A normalized CSV row with the recognized columns (each may be absent). -/
structure Row where
  part_number : Option (List Char) := none
  sku : Option (List Char) := none
  product_description : Option (List Char) := none
  spq : Option (List Char) := none
  manufacturer : Option (List Char) := none
  image_url : Option (List Char) := none
  datasheet_url : Option (List Char) := none
  series_url : Option (List Char) := none
  series : Option (List Char) := none
  quantity : Option (List Char) := none
  operating_temp : Option (List Char) := none
  supply_voltage : Option (List Char) := none
  packaging_type : Option (List Char) := none
  supplier_device_package : Option (List Char) := none
  mounting_type : Option (List Char) := none
  long_description : Option (List Char) := none
  additional_info : Option (List Char) := none
deriving DecidableEq

/-- Embedding of `createNewData(item, productId, part_number)` from
batch-helpers.js: the update payload with the fixed column-to-field
mapping and the 15 whitelisted meta entries. -/
def createNewData (item : Row) (productId : Nat) (pn : List Char) : ProductData :=
  { id := some productId
    part_number := some pn
    sku := item.sku
    description := item.product_description
    meta_data :=
      [⟨"spq".toList, item.spq⟩,
       ⟨"manufacturer".toList, item.manufacturer⟩,
       ⟨"image_url".toList, item.image_url⟩,
       ⟨"datasheet_url".toList, item.datasheet_url⟩,
       ⟨"series_url".toList, item.series_url⟩,
       ⟨"series".toList, item.series⟩,
       ⟨"quantity".toList, item.quantity⟩,
       ⟨"operating_temperature".toList, item.operating_temp⟩,
       ⟨"voltage".toList, item.supply_voltage⟩,
       ⟨"package".toList, item.packaging_type⟩,
       ⟨"supplier_device_package".toList, item.supplier_device_package⟩,
       ⟨"mounting_type".toList, item.mounting_type⟩,
       ⟨"short_description".toList, item.product_description⟩,
       ⟨"detail_description".toList, item.long_description⟩,
       ⟨"additional_key_information".toList, item.additional_info⟩] }

/-- The fixed whitelist of meta keys used by `filterCurrentData`. -/
def metaWhitelist : List (List Char) :=
  ["spq".toList, "manufacturer".toList, "image_url".toList,
   "datasheet_url".toList, "series_url".toList, "series".toList,
   "quantity".toList, "operating_temperature".toList, "voltage".toList,
   "package".toList, "supplier_device_package".toList,
   "mounting_type".toList, "short_description".toList,
   "detail_description".toList, "additional_key_information".toList]

/-- Embedding of `filterCurrentData(product)` from batch-helpers.js: keep
`sku`, `description` and only the whitelisted meta entries. -/
def filterCurrentData (product : ProductData) : ProductData :=
  { sku := product.sku
    description := product.description
    meta_data := product.meta_data.filter
      (fun m => decide (m.key ∈ metaWhitelist)) }

/-- Embedding of `isCurrentMetaMissing(newMetaValue, currentMeta)`:
`newMetaValue && !currentMeta`. -/
def isCurrentMetaMissing (newMetaValue : Option (List Char))
    (currentMeta : Option MetaEntry) : Bool :=
  truthy newMetaValue && currentMeta.isNone

/-- Embedding of `isMetaValueDifferent(newMetaValue, currentMetaValue)`:
`normalizeText(currentMetaValue) !== normalizeText(newMetaValue)`. -/
def isMetaValueDifferent (newMetaValue currentMetaValue : Option (List Char)) :
    Bool :=
  decide (¬ (normalizeText currentMetaValue = normalizeText newMetaValue))

/-- The scalar branch of `isUpdateNeeded` for one key (`sku` or
`description`): when the new value is a string both sides are normalized
(a falsy current value becomes `""`) and compared; when the new value is
not a string (an absent column) the test
`currentValue === undefined || currentValue !== newValue` fires on every
input. -/
def scalarNeedsUpdate (currentValue newValue : Option (List Char)) : Bool :=
  match newValue with
  | some n =>
      let nv := normalizeText (some n)
      let cv := if truthy currentValue then normalizeText currentValue else []
      decide (¬ (cv = nv))
  | none => true

/-- The `meta_data` branch of `isUpdateNeeded` for one new entry: the
matching current entry is looked up by key; a truthy new value with no
current entry is marked for update, otherwise the normalized values are
compared. -/
def metaEntryNeedsUpdate (currentMetaList : List MetaEntry)
    (newMeta : MetaEntry) : Bool :=
  let currentMeta := currentMetaList.find? (fun m => decide (m.key = newMeta.key))
  let currentMetaValue := currentMeta.bind MetaEntry.value
  if isCurrentMetaMissing newMeta.value currentMeta then true
  else isMetaValueDifferent newMeta.value currentMetaValue

/-- Embedding of `isUpdateNeeded(currentData, newData, ...)` from
batch-helpers.js: the keys of the new payload are walked (`id` and
`part_number` are skipped), the scalars `sku` and `description` through the
scalar branch and each new meta entry through the meta branch; the function
reports an update when any field was marked. -/
def isUpdateNeeded (currentData newData : ProductData) : Bool :=
  scalarNeedsUpdate currentData.sku newData.sku ||
    scalarNeedsUpdate currentData.description newData.description ||
    newData.meta_data.any (metaEntryNeedsUpdate currentData.meta_data)

/-- Modelled from the spec: pointwise equality of the whitelisted
projections of current and new data under text normalization — the scalars
agree after normalization and, for every key of the new meta entries, the
current entry's value (missing entries normalize to `""`) agrees with the
new value after normalization. -/
def projEq (c n : ProductData) : Prop :=
  normalizeText c.sku = normalizeText n.sku ∧
    normalizeText c.description = normalizeText n.description ∧
    ∀ m ∈ n.meta_data,
      normalizeText ((c.meta_data.find?
        (fun x => decide (x.key = m.key))).bind MetaEntry.value)
        = normalizeText m.value

/-- C10: `normalizeText` maps every falsy input (`undefined`/`null`,
modelled as `none`, and the empty string) to the empty string, and
consequently `isMetaValueDifferent` treats an absent row cell and an
empty-string remote meta value as equal. -/
theorem normalize_falsy_and_meta_missing_empty :
    normalizeText none = [] ∧ normalizeText (some []) = [] ∧
      isMetaValueDifferent none (some []) = false ∧
      isMetaValueDifferent (some []) none = false := by
  decide

/-- C5 counterexample: with `currentData` and `newData` both entirely
absent (every field `undefined`, empty meta lists) the whitelisted
projections are pointwise equal under normalization, yet `isUpdateNeeded`
returns `true`, because a non-string new scalar always fires the
`currentValue === undefined || currentValue !== newValue` test. -/
theorem isUpdateNeeded_not_iff_projEq :
    isUpdateNeeded {} {} = true ∧ projEq {} {} := by
  refine ⟨by decide, ?_, ?_, ?_⟩
  · rfl
  · rfl
  · intro m hm; cases hm

theorem scalar_cv_eq (cur : Option (List Char)) :
    (if truthy cur = true then normalizeText cur else []) = normalizeText cur := by
  cases cur with
  | none => rfl
  | some s =>
      cases s with
      | nil => rfl
      | cons a t => rfl

theorem scalarNeedsUpdate_false_iff (cur : Option (List Char)) (n : List Char) :
    scalarNeedsUpdate cur (some n) = false ↔
      normalizeText cur = normalizeText (some n) := by
  simp only [scalarNeedsUpdate]
  rw [show (if truthy cur = true then normalizeText cur else [])
      = normalizeText cur from scalar_cv_eq cur]
  simp

theorem metaEntryNeedsUpdate_false_iff (cl : List MetaEntry) (m : MetaEntry)
    (hm : (cl.find? (fun x => decide (x.key = m.key))) = none →
      truthy m.value = true → normalizeText m.value ≠ []) :
    metaEntryNeedsUpdate cl m = false ↔
      normalizeText ((cl.find?
          (fun x => decide (x.key = m.key))).bind MetaEntry.value)
        = normalizeText m.value := by
  simp only [metaEntryNeedsUpdate, isCurrentMetaMissing, isMetaValueDifferent]
  cases hfind : cl.find? (fun x => decide (x.key = m.key)) with
  | none =>
      cases ht : truthy m.value with
      | false => simp [ht]
      | true =>
          have hne := hm hfind ht
          simp only [ht, Option.isNone_none, Bool.and_self, if_true,
            Option.none_bind]
          constructor
          · intro hfalse
            simp at hfalse
          · intro heq
            exact absurd heq.symm hne
  | some e => simp

theorem list_any_congr {α : Type} (l : List α) (f g : α → Bool)
    (h : ∀ x ∈ l, f x = g x) : l.any f = l.any g := by
  induction l with
  | nil => rfl
  | cons a t ih =>
      simp only [List.any_cons]
      rw [h a (List.mem_cons_self a t),
        ih (fun x hx => h x (List.mem_cons_of_mem a hx))]

/-- C5 (amended): `isUpdateNeeded(current, new)` returns `false` exactly when
the whitelisted projections are pointwise equal under normalization,
provided the new data's `sku` and `description` are strings (present
columns) and no new meta entry combines a key missing from the current data
with a non-empty value that normalizes to the empty string; under those
conditions `id` and `part_number` never influence the result, and a meta
entry present only in the current data never causes a diff.  Without the
proviso the equivalence fails: an absent new scalar always reports an
update even when the current value is equally absent, and a missing current
meta key with a truthy new value reports an update even when that value
normalizes to empty. -/
theorem isUpdateNeeded_false_iff (c n : ProductData)
    (hs : n.sku.isSome = true) (hd : n.description.isSome = true)
    (hm : ∀ m ∈ n.meta_data,
      (c.meta_data.find? (fun x => decide (x.key = m.key))) = none →
      truthy m.value = true → normalizeText m.value ≠ []) :
    (isUpdateNeeded c n = false ↔ projEq c n) ∧
      (∀ i₁ p₁ i₂ p₂,
        isUpdateNeeded { c with id := i₁, part_number := p₁ }
          { n with id := i₂, part_number := p₂ } = isUpdateNeeded c n) ∧
      (∀ e : MetaEntry, (∀ m ∈ n.meta_data, m.key ≠ e.key) →
        isUpdateNeeded { c with meta_data := c.meta_data ++ [e] } n
          = isUpdateNeeded c n) := by
  obtain ⟨ns, hns⟩ := Option.isSome_iff_exists.mp hs
  obtain ⟨nd, hnd⟩ := Option.isSome_iff_exists.mp hd
  refine ⟨?_, ?_, ?_⟩
  · unfold isUpdateNeeded projEq
    rw [hns, hnd]
    simp only [Bool.or_eq_false_iff]
    rw [scalarNeedsUpdate_false_iff c.sku ns,
      scalarNeedsUpdate_false_iff c.description nd, List.any_eq_false]
    constructor
    · rintro ⟨⟨h1, h2⟩, h3⟩
      refine ⟨h1, h2, ?_⟩
      intro m hmem
      exact (metaEntryNeedsUpdate_false_iff c.meta_data m (hm m hmem)).mp
        (by simpa using h3 m hmem)
    · rintro ⟨h1, h2, h3⟩
      refine ⟨⟨h1, h2⟩, ?_⟩
      intro m hmem
      simp only [Bool.not_eq_true]
      exact (metaEntryNeedsUpdate_false_iff c.meta_data m (hm m hmem)).mpr
        (h3 m hmem)
  · intro i₁ p₁ i₂ p₂
    rfl
  · intro e he
    unfold isUpdateNeeded
    have hany : (n.meta_data.any
        (metaEntryNeedsUpdate (c.meta_data ++ [e])))
        = n.meta_data.any (metaEntryNeedsUpdate c.meta_data) := by
      refine list_any_congr n.meta_data _ _ ?_
      intro m hmem
      unfold metaEntryNeedsUpdate
      have hfind : (c.meta_data ++ [e]).find?
          (fun x => decide (x.key = m.key))
          = c.meta_data.find? (fun x => decide (x.key = m.key)) := by
        rw [List.find?_append]
        have : List.find? (fun x => decide (x.key = m.key)) [e] = none := by
          simp only [List.find?_singleton]
          rw [if_neg ?_]
          simp only [decide_eq_true_eq]
          intro hek
          exact (he m hmem) (hek.symm)
        rw [this, Option.or_none]
      rw [hfind]
    rw [hany]

/-- C5 witness: the amended equivalence applied to concrete data whose
scalars are present empty strings and whose meta lists are empty; both
directions of the equivalence are exercised by concluding the projections
are equal from `isUpdateNeeded = false`. -/
theorem isUpdateNeeded_false_iff_witness :
    projEq
      ({ sku := some [], description := some [] } : ProductData)
      ({ sku := some [], description := some [] } : ProductData) :=
  ((isUpdateNeeded_false_iff
      { sku := some [], description := some [] }
      { sku := some [], description := some [] }
      (by decide) (by decide)
      (by intro m hmem; cases hmem)).1).mp (by decide)

/-! ## BatchWorker counters (batch-helpers.js, `processBatch`) -/

/-- The outcome of reconciling one row inside `processBatch`:
`outOfRange` (the index guard `currentIndex >= totalProductsInFile`),
`noPart` (falsy `part_number`, returns null without touching a counter),
`notFound` (lookup returned null, increments `failed`),
`fetchFail` (fetch returned null, so `filterCurrentData` throws and the
per-row catch swallows the error without touching a counter),
`noChange` (increments `skipped`) and `needsUpdate` (contributes to the
bulk update payload). -/
inductive Outcome where
  | outOfRange
  | noPart
  | notFound
  | fetchFail
  | noChange
  | needsUpdate
deriving DecidableEq

/-- The remote catalog's responses for one row: the result of
`getProductIdByPartNumber` and of `getProductById` (both return `null` on
failure rather than throwing). -/
structure RowEnv where
  lookupResult : Option Nat := none
  fetchResult : Option ProductData := none
deriving DecidableEq

/-- A row together with the remote responses it will receive. -/
structure BatchItem where
  row : Row
  env : RowEnv
deriving DecidableEq

/-- The per-row logic of `processBatch` at `currentIndex` in a feed of
`totalProductsInFile` rows. -/
def outcomeOf (item : BatchItem) (currentIndex totalProductsInFile : Nat) :
    Outcome :=
  if totalProductsInFile ≤ currentIndex then Outcome.outOfRange
  else if truthy item.row.part_number = false then Outcome.noPart
  else
    match item.env.lookupResult with
    | none => Outcome.notFound
    | some productId =>
        match item.env.fetchResult with
        | none => Outcome.fetchFail
        | some product =>
            if isUpdateNeeded (filterCurrentData product)
                (createNewData item.row productId
                  (item.row.part_number.getD []))
            then Outcome.needsUpdate
            else Outcome.noChange

/-- The outcomes of a batch starting at `startIndex` (the worker passes the
job's own `lastProcessedRow` as the start index). -/
def outcomesFrom : Nat → Nat → List BatchItem → List Outcome
  | _, _, [] => []
  | i, total, item :: rest =>
      outcomeOf item i total :: outcomesFrom (i + 1) total rest

/-- The counter deltas of one delivery of a batch job. -/
structure Delta where
  updated : Nat
  skipped : Nat
  failed : Nat
deriving DecidableEq

/-- The counter effect of one `processBatch` call, together with whether the
call throws (a permanent bulk-update failure after `MAX_RETRIES = 5`
attempts increments `failed` by exactly 1 via `redisClient.incr` and
throws, triggering queue redelivery).  `bulkOk` abstracts whether one of
the 5 bulk-update attempts succeeds. -/
def processBatchDelta (batch : List BatchItem)
    (startIndex totalProductsInFile : Nat) (bulkOk : Bool) : Delta × Bool :=
  let outs := outcomesFrom startIndex totalProductsInFile batch
  let u := outs.count Outcome.needsUpdate
  let s := outs.count Outcome.noChange
  let f := outs.count Outcome.notFound
  if u = 0 then (⟨0, s, f⟩, false)
  else if bulkOk then (⟨u, s, f⟩, false)
  else (⟨0, s, f + 1⟩, true)

/-- One delivery of a batch job to the worker. -/
structure Delivery where
  batch : List BatchItem
  startIndex : Nat
  total : Nat
  bulkOk : Bool

/-- Pointwise sum of counter deltas. -/
def addDelta (a b : Delta) : Delta :=
  ⟨a.updated + b.updated, a.skipped + b.skipped, a.failed + b.failed⟩

/-- Fold one delivery into the running per-feed counters. -/
def applyDelivery (acc : Delta) (d : Delivery) : Delta :=
  addDelta acc (processBatchDelta d.batch d.startIndex d.total d.bulkOk).1

/-- The per-feed counters after a sequence of deliveries, starting from
zero. -/
def countersAfter (ds : List Delivery) : Delta :=
  ds.foldl applyDelivery ⟨0, 0, 0⟩

/-- A row with no `part_number`: `processBatch` returns null for it without
incrementing any counter. -/
def rowNoPart : Row := {}

/-- A row whose remote data matches, producing `NO_CHANGE`. -/
def rowNC : Row :=
  { part_number := some ['p'], sku := some [], product_description := some [] }

/-- A row that needs an update (its `sku` column is absent, which always
marks a diff). -/
def rowU1 : Row := { part_number := some ['q'] }

/-- A second row that needs an update. -/
def rowU2 : Row := { part_number := some ['r'] }

/-- A fetched product with empty scalars and no meta entries. -/
def prodEmpty : ProductData := { sku := some [], description := some [] }

/-- A remote environment where lookup and fetch both succeed. -/
def envOk : RowEnv := { lookupResult := some 1, fetchResult := some prodEmpty }

/-- C4: the claim's canonical accounting rule increments `skipped` for rows
missing `part_number` and increments `failed` by `len(batch)` on permanent
bulk failure.  The code does neither: a batch whose single row misses
`part_number` leaves all counters unchanged, and a two-row batch whose bulk
update fails permanently increments `failed` by exactly 1, not by 2. -/
theorem processBatch_counter_divergence :
    (processBatchDelta [⟨rowNoPart, {}⟩] 1 10 true).1 = ⟨0, 0, 0⟩ ∧
      (processBatchDelta [⟨rowU1, envOk⟩, ⟨rowU2, envOk⟩] 2 10 false).1
        = ⟨0, 0, 1⟩ ∧
      ([⟨rowU1, envOk⟩, ⟨rowU2, envOk⟩] : List BatchItem).length = 2 := by
  decide

/-- The delivery used in the C3 counterexample: a feed of 4 rows, a batch
holding one `NO_CHANGE` row and one updating row whose bulk update fails
permanently, so the job throws and the queue redelivers it. -/
def dCE : Delivery := ⟨[⟨rowNC, envOk⟩, ⟨rowU1, envOk⟩], 2, 4, false⟩

/-- C3 counterexample: three deliveries of the same failing batch job (the
queue redelivers a failed job up to 5 times) drive the counters to
`updated + skipped + failed = 6 > 4 = totalRowsInFeed`, violating the
claimed invariant at an observation point during redelivery. -/
theorem counters_exceed_total :
    (countersAfter [dCE, dCE, dCE]).updated
        + (countersAfter [dCE, dCE, dCE]).skipped
        + (countersAfter [dCE, dCE, dCE]).failed = 6 ∧
      dCE.total = 4 ∧ ¬ (6 ≤ 4) ∧
      (processBatchDelta dCE.batch dCE.startIndex dCE.total dCE.bulkOk).2
        = true := by
  decide

theorem outcomesFrom_length :
    ∀ (i t : Nat) (l : List BatchItem), (outcomesFrom i t l).length = l.length := by
  intro i t l
  induction l generalizing i with
  | nil => rfl
  | cons item rest ih =>
      simp only [outcomesFrom, List.length_cons]
      rw [ih (i + 1)]

theorem count3_le (l : List Outcome) (a b c : Outcome) (hab : a ≠ b)
    (hac : a ≠ c) (hbc : b ≠ c) :
    l.count a + l.count b + l.count c ≤ l.length := by
  induction l with
  | nil => simp
  | cons x t ih =>
      simp only [List.count_cons, List.length_cons]
      by_cases hxa : x = a <;> by_cases hxb : x = b <;> by_cases hxc : x = c <;>
        simp_all <;> omega

theorem delta_sum_le (batch : List BatchItem) (i t : Nat) (ok : Bool) :
    (processBatchDelta batch i t ok).1.updated
      + (processBatchDelta batch i t ok).1.skipped
      + (processBatchDelta batch i t ok).1.failed ≤ batch.length := by
  simp only [processBatchDelta]
  have hlen := outcomesFrom_length i t batch
  have h3 := count3_le (outcomesFrom i t batch) Outcome.needsUpdate
    Outcome.noChange Outcome.notFound (by decide) (by decide) (by decide)
  by_cases hu : (outcomesFrom i t batch).count Outcome.needsUpdate = 0
  · rw [if_pos hu]
    dsimp only
    omega
  · rw [if_neg hu]
    by_cases hok : ok = true
    · rw [if_pos hok]
      dsimp only
      omega
    · rw [if_neg hok]
      dsimp only
      omega

theorem counters_aux (ds : List Delivery) :
    ∀ acc : Delta,
      (ds.foldl applyDelivery acc).updated + (ds.foldl applyDelivery acc).skipped
          + (ds.foldl applyDelivery acc).failed
        ≤ (acc.updated + acc.skipped + acc.failed)
          + ((ds.map (fun d => d.batch.length)).sum) := by
  induction ds with
  | nil => intro acc; simp
  | cons d t ih =>
      intro acc
      simp only [List.foldl_cons, List.map_cons, List.sum_cons, applyDelivery,
        addDelta]
      have hd := delta_sum_le d.batch d.startIndex d.total d.bulkOk
      have ht := ih (applyDelivery acc d)
      simp only [applyDelivery, addDelta] at ht
      omega

/-- C3 (amended): if every batch job is delivered at most once (no queue
redelivery) and the batches together cover at most `totalRowsInFeed` rows,
then `updated + skipped + failed ≤ totalRowsInFeed` at every observation
point; equality need not hold at completion (rows missing `part_number` and
rows whose fetch fails are counted nowhere), and under redelivery the bound
can be exceeded.  The shutdown detector in worker.js moreover tests
`updated + failed ≥ totalRows`, without `skipped`. -/
theorem counters_bounded (total : Nat) (ds : List Delivery)
    (h : ((ds.map (fun d => d.batch.length)).sum) ≤ total) :
    (countersAfter ds).updated + (countersAfter ds).skipped
      + (countersAfter ds).failed ≤ total := by
  have h0 := counters_aux ds ⟨0, 0, 0⟩
  dsimp only at h0
  unfold countersAfter
  omega

/-- C3 witness: the amended bound applied to a single delivery of a
single-row batch in a one-row feed. -/
theorem counters_bounded_witness :
    ((([⟨[⟨rowNoPart, {}⟩], 1, 1, true⟩] : List Delivery).map
        (fun d => d.batch.length)).sum ≤ 1) ∧
      (countersAfter [⟨[⟨rowNoPart, {}⟩], 1, 1, true⟩]).updated
          + (countersAfter [⟨[⟨rowNoPart, {}⟩], 1, 1, true⟩]).skipped
          + (countersAfter [⟨[⟨rowNoPart, {}⟩], 1, 1, true⟩]).failed ≤ 1 :=
  ⟨by decide, counters_bounded 1 [⟨[⟨rowNoPart, {}⟩], 1, 1, true⟩] (by decide)⟩

end WooUpdate
